import Mathlib

/-!
# Instruction encoding constants and accessors of the PPC port (src/ppc/constants-ppc.h)

A shallow embedding of the header. A C++ `int` / `int32_t` / enum value is a Lean `Int`
in the range [-2^31, 2^31). The bitwise operators act on the 32-bit pattern of the value
(`toBits`) and their result is read back as a signed value (`ofBits`). Left shift and
subtraction wrap modulo 2^32, right shift of a signed value is arithmetic (it copies the
sign bit), which is what the compilers the program is built with do.
-/

namespace V8PPC

/-! ## Machine integers -/

/-- The 32-bit pattern of a signed value: the natural number below 2^32 congruent to it. -/
def toBits (x : Int) : Nat := (x % 2 ^ 32).toNat

/-- The signed value of a 32-bit pattern: bit 31 is the sign bit. -/
def ofBits (n : Nat) : Int :=
  if n % 2 ^ 32 < 2 ^ 31 then ((n % 2 ^ 32 : Nat) : Int) else ((n % 2 ^ 32 : Nat) : Int) - 2 ^ 32

/-- The range of a C++ `int` on the targets of the program. -/
def isInt32 (x : Int) : Prop := -2 ^ 31 ≤ x ∧ x < 2 ^ 31

instance (x : Int) : Decidable (isInt32 x) := by
  unfold isInt32; infer_instance

/-- The C++ expression `a << n` on `int`, wrapping modulo 2^32. -/
def shl (a : Int) (n : Nat) : Int := ofBits (toBits a <<< n)

/-- The C++ expression `a >> n` on `int`: an arithmetic shift. -/
def sar (a : Int) (n : Nat) : Int := a >>> n

/-- The C++ expression `a & b` on `int`. -/
def band (a b : Int) : Int := ofBits (toBits a &&& toBits b)

/-- The C++ expression `a | b` on `int`. -/
def bor (a b : Int) : Int := ofBits (toBits a ||| toBits b)

/-- The C++ expression `a ^ b` on `int`. -/
def bxor (a b : Int) : Int := ofBits (toBits a ^^^ toBits b)

/-- The C++ expression `a - b` on `int`, wrapping modulo 2^32. -/
def sub32 (a b : Int) : Int := ofBits (toBits (a - b))

/-! ## Conditions (lines 68-124) -/

namespace Condition

def kNoCondition : Int := -1
def eq : Int := shl 0 28
def ne : Int := shl 1 28
def cs : Int := shl 2 28
def cc : Int := shl 3 28
def mi : Int := shl 4 28
def pl : Int := shl 5 28
def vs : Int := shl 6 28
def vc : Int := shl 7 28
def hi : Int := shl 8 28
def ls : Int := shl 9 28
def ge : Int := shl 10 28
def lt : Int := shl 11 28
def gt : Int := shl 12 28
def le : Int := shl 13 28
def al : Int := shl 14 28
def kSpecialCondition : Int := shl 15 28
def kNumberOfConditions : Int := 16
def hs : Int := cs
def lo : Int := cc

/-- The sixteen condition codes in the order of the enum, `eq` first. -/
def codes : List Int :=
  [eq, ne, cs, cc, mi, pl, vs, vc, hi, ls, ge, lt, gt, le, al, kSpecialCondition]

end Condition

/-- Modelled from the spec: the `ASSERT` macro, which this header uses and does not
define. A checked assertion: the computation goes on when the condition holds and fails
(here `none`) when it does not. -/
def ASSERT (b : Bool) : Option Unit := if b then some () else none

/-- The function `NegateCondition` (lines 96-99). -/
def NegateCondition (cond : Int) : Option Int := do
  ASSERT (cond != Condition.al)
  pure (bxor cond Condition.ne)

/-- The function `ReverseCondition` (lines 103-124): the `switch` tests the labels in
turn, all labels are distinct values. -/
def ReverseCondition (cond : Int) : Int :=
  if cond = Condition.lo then Condition.hi
  else if cond = Condition.hi then Condition.lo
  else if cond = Condition.hs then Condition.ls
  else if cond = Condition.ls then Condition.hs
  else if cond = Condition.lt then Condition.gt
  else if cond = Condition.gt then Condition.lt
  else if cond = Condition.ge then Condition.le
  else if cond = Condition.le then Condition.ge
  else cond

/-! ## Primary opcodes (lines 137-190) -/

namespace Opcode

def TWI : Int := shl 3 26
def MULLI : Int := shl 7 26
def SUBFIC : Int := shl 8 26
def CMPLI : Int := shl 10 26
def CMPI : Int := shl 11 26
def ADDIC : Int := shl 12 26
def ADDICx : Int := shl 13 26
def ADDI : Int := shl 14 26
def ADDIS : Int := shl 15 26
def BCX : Int := shl 16 26
def SC : Int := shl 17 26
def BX : Int := shl 18 26
def EXT1 : Int := shl 19 26
def RLWIMIX : Int := shl 20 26
def RLWINMX : Int := shl 21 26
def RLWNMX : Int := shl 23 26
def ORI : Int := shl 24 26
def ORIS : Int := shl 25 26
def XORI : Int := shl 26 26
def XORIS : Int := shl 27 26
def ANDIx : Int := shl 28 26
def ANDISx : Int := shl 29 26
def EXT5 : Int := shl 30 26
def EXT2 : Int := shl 31 26
def LWZ : Int := shl 32 26
def LWZU : Int := shl 33 26
def LBZ : Int := shl 34 26
def LBZU : Int := shl 35 26
def STW : Int := shl 36 26
def STWU : Int := shl 37 26
def STB : Int := shl 38 26
def STBU : Int := shl 39 26
def LHZ : Int := shl 40 26
def LHZU : Int := shl 41 26
def LHA : Int := shl 42 26
def LHAU : Int := shl 43 26
def STH : Int := shl 44 26
def STHU : Int := shl 45 26
def LMW : Int := shl 46 26
def STMW : Int := shl 47 26
def LFS : Int := shl 48 26
def LFSU : Int := shl 49 26
def LFD : Int := shl 50 26
def LFDU : Int := shl 51 26
def STFS : Int := shl 52 26
def STFSU : Int := shl 53 26
def STFD : Int := shl 54 26
def STFDU : Int := shl 55 26
def LD : Int := shl 58 26
def EXT3 : Int := shl 59 26
def STD : Int := shl 62 26
def EXT4 : Int := shl 63 26

/-- Every constant of the enum, in the order of the source. -/
def all : List Int :=
  [TWI, MULLI, SUBFIC, CMPLI, CMPI, ADDIC, ADDICx, ADDI, ADDIS, BCX, SC, BX, EXT1,
   RLWIMIX, RLWINMX, RLWNMX, ORI, ORIS, XORI, XORIS, ANDIx, ANDISx, EXT5, EXT2, LWZ,
   LWZU, LBZ, LBZU, STW, STWU, STB, STBU, LHZ, LHZU, LHA, LHAU, STH, STHU, LMW, STMW,
   LFS, LFSU, LFD, LFDU, STFS, STFSU, STFD, STFDU, LD, EXT3, STD, EXT4]

end Opcode

/-! ## The instruction accessors (lines 743-797) -/

/-- The accessor `Instruction::Bit` (lines 744-746 and 761-763). -/
def Bit (instr : Int) (nr : Nat) : Int := band (sar instr nr) 1

/-- The accessor `Instruction::Bits` (lines 749-751 and 766-768). -/
def Bits (instr : Int) (hi lo : Nat) : Int :=
  band (sar instr lo) (sub32 (shl 2 (hi - lo)) 1)

/-- The accessor `Instruction::BitField` (lines 754-756 and 772-774). -/
def BitField (instr : Int) (hi lo : Nat) : Int :=
  band instr (shl (sub32 (shl 2 (hi - lo)) 1) lo)

/-- The accessor `Instruction::RSValue` (line 777). -/
def RSValue (instr : Int) : Int := Bits instr 25 21

/-- The accessor `Instruction::RTValue` (line 778). -/
def RTValue (instr : Int) : Int := Bits instr 25 21

/-- The accessor `Instruction::RAValue` (line 779). -/
def RAValue (instr : Int) : Int := Bits instr 20 16

/-- The accessor `Instruction::RBValue` (line 781). -/
def RBValue (instr : Int) : Int := Bits instr 15 11

/-- The accessor `Instruction::RCValue` (line 783). -/
def RCValue (instr : Int) : Int := Bits instr 10 6

/-- The accessor `Instruction::OpcodeValue` (lines 787-789); the cast to the enum and
back to `int` keeps the value. -/
def OpcodeValue (instr : Int) : Int := Bits instr 31 26

/-! ## The formulas of the specification, for comparison with the accessors -/

/-- The formula the specification gives for `bits(hi, lo)`:
`(W >> lo) & ((1 << (hi-lo+1)) - 1)`, each operator on 32-bit values. -/
def Bits_spec (W : Int) (hi lo : Nat) : Int :=
  band (sar W lo) (sub32 (shl 1 (hi - lo + 1)) 1)

/-- The formula the specification gives for `bit_field(hi, lo)`: `W & (mask << lo)` with
the mask `(1 << (hi-lo+1)) - 1`, each operator on 32-bit values. -/
def BitField_spec (W : Int) (hi lo : Nat) : Int :=
  band W (shl (sub32 (shl 1 (hi - lo + 1)) 1) lo)

/-- The unsigned integer formed by bits `hi..lo` of a word, right-aligned: the bits of
the 32-bit pattern from `lo` up to `hi`. -/
def field (W : Int) (hi lo : Nat) : Nat := (toBits W / 2 ^ lo) % 2 ^ (hi - lo + 1)

/-! ## The flag predicates documented beside the conditions (lines 71-84) -/

/-- The test on the flags N, Z, C, V that the comment beside each enumerator of
`Condition` documents, for the fourteen conditions from `eq` to `le`. -/
def holds (c : Int) (N Z C V : Bool) : Bool :=
  if c = Condition.eq then Z
  else if c = Condition.ne then !Z
  else if c = Condition.cs then C
  else if c = Condition.cc then !C
  else if c = Condition.mi then N
  else if c = Condition.pl then !N
  else if c = Condition.vs then V
  else if c = Condition.vc then !V
  else if c = Condition.hi then C && !Z
  else if c = Condition.ls then !C || Z
  else if c = Condition.ge then N == V
  else if c = Condition.lt then N != V
  else if c = Condition.gt then !Z && (N == V)
  else if c = Condition.le then Z || (N != V)
  else false

/-- The fourteen conditions that carry a flag predicate, `eq` to `le`. -/
def flagConditions : List Int :=
  [Condition.eq, Condition.ne, Condition.cs, Condition.cc, Condition.mi, Condition.pl,
   Condition.vs, Condition.vc, Condition.hi, Condition.ls, Condition.ge, Condition.lt,
   Condition.gt, Condition.le]

/-! ## Extended opcodes of set 2 (lines 209-282), documented as bits 9-1 or 10-1 -/

namespace OpcodeExt2

def CMP : Int := shl 0 1
def TW : Int := shl 4 1
def SUBFCX : Int := shl 8 1
def ADDCX : Int := shl 10 1
def MULHWUX : Int := shl 11 1
def MFCR : Int := shl 19 1
def LWARX : Int := shl 20 1
def LDX : Int := shl 21 1
def LWZX : Int := shl 23 1
def SLWX : Int := shl 24 1
def CNTLZWX : Int := shl 26 1
def ANDX : Int := shl 28 1
def CMPL : Int := shl 32 1
def SUBFX : Int := shl 40 1
def DCBST : Int := shl 54 1
def LWZUX : Int := shl 55 1
def ANDCX : Int := shl 60 1
def MULHWX : Int := shl 75 1
def DCBF : Int := shl 86 1
def LBZX : Int := shl 87 1
def NEGX : Int := shl 104 1
def LBZUX : Int := shl 119 1
def NORX : Int := shl 124 1
def SUBFEX : Int := shl 136 1
def ADDEX : Int := shl 138 1
def STWX : Int := shl 151 1
def STWUX : Int := shl 183 1
def ADDZEX : Int := shl 202 1
def STBX : Int := shl 215 1
def MULLW : Int := shl 235 1
def STBUX : Int := shl 247 1
def ADDX : Int := shl 266 1
def LHZX : Int := shl 279 1
def LHZUX : Int := shl 311 1
def LHAX : Int := shl 343 1
def LHAUX : Int := shl 375 1
def XORX : Int := shl 316 1
def MFSPR : Int := shl 339 1
def STHX : Int := shl 407 1
def STHUX : Int := shl 439 1
def ORX : Int := shl 444 1
def MTSPR : Int := shl 467 1
def DIVW : Int := shl 491 1
def LFSX : Int := shl 535 1
def SRWX : Int := shl 536 1
def LFSUX : Int := shl 567 1
def SYNC : Int := shl 598 1
def LFDX : Int := shl 599 1
def LFDUX : Int := shl 631 1
def STFSX : Int := shl 663 1
def STFSUX : Int := shl 695 1
def STFDX : Int := shl 727 1
def STFDUX : Int := shl 759 1
def SRAW : Int := shl 792 1
def SRAWIX : Int := shl 824 1
def EXTSH : Int := shl 922 1
def EXTSB : Int := shl 954 1
def ICBI : Int := shl 982 1

/-- Every constant of the enum, in the order of the source. -/
def all : List Int :=
  [CMP, TW, SUBFCX, ADDCX, MULHWUX, MFCR, LWARX, LDX, LWZX, SLWX, CNTLZWX, ANDX, CMPL,
   SUBFX, DCBST, LWZUX, ANDCX, MULHWX, DCBF, LBZX, NEGX, LBZUX, NORX, SUBFEX, ADDEX,
   STWX, STWUX, ADDZEX, STBX, MULLW, STBUX, ADDX, LHZX, LHZUX, LHAX, LHAUX, XORX,
   MFSPR, STHX, STHUX, ORX, MTSPR, DIVW, LFSX, SRWX, LFSUX, SYNC, LFDX, LFDUX, STFSX,
   STFSUX, STFDX, STFDUX, SRAW, SRAWIX, EXTSH, EXTSB, ICBI]

end OpcodeExt2

/-! ## Instruction encoding masks (lines 315-377) -/

def kOpcodeMask : Int := shl 63 26
def kExt2OpcodeMask : Int := shl 31 1
def kBOMask : Int := shl 31 21
def kBIMask : Int := shl 31 16
def kBDMask : Int := shl 20 2
def kAAMask : Int := shl 1 1
def kLKMask : Int := 1
def kRCMask : Int := 1
def kTOMask : Int := shl 31 21
def kBOfieldMask : Int := shl 31 20

/-- The field masks of the conditional branch form, in the order of the source. -/
def branchMasks : List Int := [kOpcodeMask, kBOMask, kBIMask, kBDMask, kAAMask, kLKMask]

/-! ## The fake opcodes (lines 379-487)

The macros are defined without parentheses; in the expressions considered here they are
combined with the operator `|`, which binds less tightly than `<<`, so each macro stands
for the value of its own text. -/

/-- The macro `FAKE_OPCODE`, the text `1 << 26`. -/
def FAKE_OPCODE : Int := shl 1 26

/-- The macro `MARKER_SUBOPCODE_BIT`. -/
def MARKER_SUBOPCODE_BIT : Nat := 25

/-- The macro `MARKER_SUBOPCODE`, the text `1 << MARKER_SUBOPCODE_BIT`. -/
def MARKER_SUBOPCODE : Int := shl 1 MARKER_SUBOPCODE_BIT

/-- The macro `FAKER_SUBOPCODE`, the text `0 << MARKER_SUBOPCODE_BIT`. -/
def FAKER_SUBOPCODE : Int := shl 0 MARKER_SUBOPCODE_BIT

/-- The macro `FAKE_OPCODE_HIGH_BIT`. -/
def FAKE_OPCODE_HIGH_BIT : Nat := 7

namespace FAKE_OPCODE_T

def fMRS : Int := 0
def fMSR : Int := 1
def fLDR : Int := 2
def fSTR : Int := 3
def fLDRB : Int := 4
def fSTRB : Int := 5
def fLDRH : Int := 6
def fSTRH : Int := 7
def fLDRSH : Int := 8
def fLDRD : Int := 9
def fSTRD : Int := 10
def fLDM : Int := 11
def fSTM : Int := 12
def fBKPT : Int := 14
def fSVC : Int := 15
def fVLDR : Int := 16
def fVSTR : Int := 17
def fVMOV : Int := 18
def fVNEG : Int := 19
def fVABS : Int := 20
def fVADD : Int := 21
def fVSUB : Int := 22
def fVMUL : Int := 23
def fVDIV : Int := 24
def fVCMP : Int := 25
def fVMSR : Int := 26
def fVMRS : Int := 27
def fVSQRT : Int := 28
def fAND : Int := 29
def fEOR : Int := 30
def fRSB : Int := 31
def fADC : Int := 32
def fSBC : Int := 33
def fRSC : Int := 34
def fTST : Int := 35
def fTEQ : Int := 36
def fCMP : Int := 37
def fCMN : Int := 38
def fORR : Int := 39
def fBIC : Int := 40
def fMVN : Int := 41
def fLDRSB : Int := 42
def fADD : Int := 43
def fBranch : Int := 44
def fMASM1 : Int := 60
def fMASM3 : Int := 61
def fMASM4 : Int := 62
def fMASM5 : Int := 63
def fMASM6 : Int := 64
def fMASM7 : Int := 65
def fMASM8 : Int := 66
def fMASM12 : Int := 67
def fMASM13 : Int := 68
def fMASM16 : Int := 69
def fMASM17 : Int := 70
def fMASM18 : Int := 71
def fMASM19 : Int := 72
def fMASM20 : Int := 73
def fMASM21 : Int := 74
def fMASM22 : Int := 75
def fMASM23 : Int := 76
def fMASM26 : Int := 79
def fMASM27 : Int := 80
def fMASM28 : Int := 81
def fMASM29 : Int := 82
def fLITHIUM90 : Int := 90
def fLITHIUM91 : Int := 91
def fLITHIUM92 : Int := 92
def fLITHIUM93 : Int := 93
def fLITHIUM94 : Int := 94
def fLITHIUM95 : Int := 95
def fLITHIUM96 : Int := 96
def fLITHIUM97 : Int := 97
def fLITHIUM98 : Int := 98
def fLITHIUM99 : Int := 99
def fLITHIUM100 : Int := 100
def fLITHIUM101 : Int := 101
def fLITHIUM102 : Int := 102
def fLITHIUM103 : Int := 103
def fLITHIUM104 : Int := 104
def fLITHIUM105 : Int := 105
def fLITHIUM106 : Int := 106
def fLITHIUM107 : Int := 107
def fLITHIUM108 : Int := 108
def fLITHIUM109 : Int := 109
def fLITHIUM110 : Int := 110

/-- The end marker, written without a value: one more than the enumerator before it. -/
def fLastFaker : Int := fLITHIUM110 + 1

/-- Every tag of the enum from `fMRS` to `fLITHIUM110`, in the order of the source. -/
def all : List Int :=
  [fMRS, fMSR, fLDR, fSTR, fLDRB, fSTRB, fLDRH, fSTRH, fLDRSH, fLDRD, fSTRD, fLDM,
   fSTM, fBKPT, fSVC, fVLDR, fVSTR, fVMOV, fVNEG, fVABS, fVADD, fVSUB, fVMUL, fVDIV,
   fVCMP, fVMSR, fVMRS, fVSQRT, fAND, fEOR, fRSB, fADC, fSBC, fRSC, fTST, fTEQ, fCMP,
   fCMN, fORR, fBIC, fMVN, fLDRSB, fADD, fBranch, fMASM1, fMASM3, fMASM4, fMASM5,
   fMASM6, fMASM7, fMASM8, fMASM12, fMASM13, fMASM16, fMASM17, fMASM18, fMASM19,
   fMASM20, fMASM21, fMASM22, fMASM23, fMASM26, fMASM27, fMASM28, fMASM29, fLITHIUM90,
   fLITHIUM91, fLITHIUM92, fLITHIUM93, fLITHIUM94, fLITHIUM95, fLITHIUM96, fLITHIUM97,
   fLITHIUM98, fLITHIUM99, fLITHIUM100, fLITHIUM101, fLITHIUM102, fLITHIUM103,
   fLITHIUM104, fLITHIUM105, fLITHIUM106, fLITHIUM107, fLITHIUM108, fLITHIUM109,
   fLITHIUM110]

end FAKE_OPCODE_T

/-! ## Software interrupt codes (lines 628-644) -/

def kCallRtRedirected : Int := 0x10
def kBreakpoint : Int := 0x821008
def kStopCode : Int := shl 1 23
def kInfo : Int := 0x9ff808

/-- The constant `kStopCodeMask`, an unsigned 32-bit value. -/
def kStopCodeMask : Int := kStopCode - 1

/-- The constant `kMaxStopCode`, an unsigned 32-bit value. -/
def kMaxStopCode : Int := kStopCode - 1

/-! ## Further accessors and the sign extension -/

/-- The accessor `Instruction::OpcodeField` (lines 790-792). -/
def OpcodeField (instr : Int) : Int := BitField instr 24 21

/-- The accessor `Instruction::SvcValue` (lines 795-797); every value of 24 bits is in
the range of the enum, so the cast keeps the value. -/
def SvcValue (instr : Int) : Int := Bits instr 23 0

/-- The macro `SIGN_EXT_IMM16` (line 51) applied to a value of type `int`. -/
def SIGN_EXT_IMM16 (imm : Int) : Int := sar (shl imm 16) 16

/-! ## Extended opcodes of set 4 (lines 284-307) -/

namespace OpcodeExt4

def FDIV : Int := shl 18 1
def FSUB : Int := shl 20 1
def FADD : Int := shl 21 1
def FSQRT : Int := shl 22 1
def FSEL : Int := shl 23 1
def FMUL : Int := shl 25 1
def FCMPU : Int := shl 0 1
def FRSP : Int := shl 12 1
def FCTIWZ : Int := shl 15 1
def FNEG : Int := shl 40 1
def MCRFS : Int := shl 64 1
def FMR : Int := shl 72 1
def MTFSFI : Int := shl 134 1
def FABS : Int := shl 264 1
def FRIM : Int := shl 488 1
def FCFID : Int := shl 846 1
def FCTID : Int := shl 814 1
def FCTIDZ : Int := shl 815 1

/-- The constants the source lists under bits 5-1. -/
def fiveBit : List Int :=
  [FDIV, FSUB, FADD, FSQRT, FSEL, FMUL]

/-- The constants the source lists under bits 10-1. -/
def tenBit : List Int :=
  [FCMPU, FRSP, FCTIWZ, FNEG, MCRFS, FMR, MTFSFI, FABS, FRIM, FCFID, FCTID, FCTIDZ]

/-- Every constant of the enum, in the order of the source. -/
def all : List Int := fiveBit ++ tenBit

end OpcodeExt4

/-! ## Branch options (lines 509-519), documented as bits 25-21 -/

namespace BOfield

def DCBNZF : Int := shl 0 21
def DCBEZF : Int := shl 2 21
def BF : Int := shl 4 21
def DCBNZT : Int := shl 8 21
def DCBEZT : Int := shl 10 21
def BT : Int := shl 12 21
def DCBNZ : Int := shl 16 21
def DCBEZ : Int := shl 18 21
def BA : Int := shl 20 21

/-- Every constant of the enum, in the order of the source. -/
def all : List Int :=
  [DCBNZF, DCBEZF, BF, DCBNZT, DCBEZT, BT, DCBNZ, DCBEZ, BA]

end BOfield

/-! ## Registers (lines 39-48 and 814-844) -/

def kNumRegisters : Int := 32
def kNumFPDoubleRegisters : Int := 32
def kNumFPRegisters : Int := kNumFPDoubleRegisters
def kPCRegister : Int := -2
def kNoRegister : Int := -1

/-- The structure `Registers::RegisterAlias` (lines 823-826). -/
structure RegisterAlias where
  reg : Int
  name : String

/-- Modelled from the spec: the table `names_` of a register bank, which the header
declares (lines 829 and 843) and does not define. The specification describes it as a
bidirectional mapping between the register indices in [0, 32) and their canonical names,
each register having exactly one canonical name: 32 names, pairwise distinct. -/
structure NameTable where
  names : List String
  size : names.length = 32
  distinct : names.Nodup

/-- Modelled from the spec: the reverse lookup among the canonical names, the first
index whose name is the given one, if there is one. -/
def NameTable.lookup (T : NameTable) (name : String) : Option Int :=
  if T.names.indexOf name < T.names.length then some (T.names.indexOf name : Int) else none

namespace Registers

/-- Modelled from the spec: the function `Registers::Name`, declared at line 818 and
defined outside the header. It returns the canonical name of a valid index and fails,
here with `none`, on an index out of range. -/
def Name (names_ : NameTable) (reg : Int) : Option String :=
  if 0 ≤ reg ∧ reg < kNumRegisters then names_.names[reg.toNat]? else none

/-- Modelled from the spec: the function `Registers::Number`, declared at line 821 and
defined outside the header. It checks the canonical names first, then the table of
aliases, and returns the sentinel `kNoRegister` for a name it does not find. -/
def Number (names_ : NameTable) (aliases_ : List RegisterAlias) (name : String) : Int :=
  match names_.lookup name with
  | some i => i
  | none =>
    match aliases_.find? (fun a => a.name == name) with
    | some a => a.reg
    | none => kNoRegister

end Registers

namespace FPRegisters

/-- Modelled from the spec: the function `FPRegisters::Name`, declared at line 837 and
defined outside the header. It returns the canonical name of a valid index and fails,
here with `none`, on an index out of range. -/
def Name (names_ : NameTable) (reg : Int) : Option String :=
  if 0 ≤ reg ∧ reg < kNumFPRegisters then names_.names[reg.toNat]? else none

/-- Modelled from the spec: the function `FPRegisters::Number`, declared at line 840 and
defined outside the header; this bank has no table of aliases. It returns the index of
the canonical name and the sentinel `kNoRegister` for a name it does not find. -/
def Number (names_ : NameTable) (name : String) : Int :=
  match names_.lookup name with
  | some i => i
  | none => kNoRegister

end FPRegisters

/-- A table of the model: the numeric names r0 .. r31. -/
def numericNames : NameTable where
  names := ["r0", "r1", "r2", "r3", "r4", "r5", "r6", "r7", "r8", "r9", "r10", "r11",
    "r12", "r13", "r14", "r15", "r16", "r17", "r18", "r19", "r20", "r21", "r22", "r23",
    "r24", "r25", "r26", "r27", "r28", "r29", "r30", "r31"]
  size := by decide
  distinct := by decide

/-! ## Facts about the machine integers -/

theorem toBits_lt (x : Int) : toBits x < 2 ^ 32 := by
  unfold toBits
  have h1 : 0 ≤ x % 2 ^ 32 := Int.emod_nonneg _ (by norm_num)
  have h2 : x % 2 ^ 32 < 2 ^ 32 := Int.emod_lt_of_pos _ (by norm_num)
  omega

theorem toBits_ofBits (n : Nat) : toBits (ofBits n) = n % 2 ^ 32 := by
  unfold toBits ofBits
  have h : n % 2 ^ 32 < 2 ^ 32 := Nat.mod_lt _ (by norm_num)
  split <;> omega

theorem ofBits_toBits (x : Int) (h : isInt32 x) : ofBits (toBits x) = x := by
  unfold isInt32 at h
  unfold toBits ofBits
  split <;> omega

theorem toBits_of_nonneg (x : Int) (h0 : 0 ≤ x) (h1 : x < 2 ^ 32) : toBits x = x.toNat := by
  unfold toBits
  omega

theorem toBits_natCast (n : Nat) (h : n < 2 ^ 32) : toBits (n : Int) = n := by
  unfold toBits
  omega

theorem ofBits_of_lt (n : Nat) (h : n < 2 ^ 31) : ofBits n = n := by
  unfold ofBits
  split <;> omega

theorem toBits_band (a b : Int) : toBits (band a b) = toBits a &&& toBits b := by
  unfold band
  rw [toBits_ofBits]
  exact Nat.mod_eq_of_lt (Nat.and_lt_two_pow _ (toBits_lt b))

theorem toBits_bor (a b : Int) : toBits (bor a b) = toBits a ||| toBits b := by
  unfold bor
  rw [toBits_ofBits]
  exact Nat.mod_eq_of_lt (Nat.or_lt_two_pow (toBits_lt a) (toBits_lt b))

theorem toBits_bxor (a b : Int) : toBits (bxor a b) = toBits a ^^^ toBits b := by
  unfold bxor
  rw [toBits_ofBits]
  exact Nat.mod_eq_of_lt (Nat.xor_lt_two_pow (toBits_lt a) (toBits_lt b))

theorem toBits_shl (a : Int) (n : Nat) : toBits (shl a n) = (toBits a <<< n) % 2 ^ 32 := by
  unfold shl
  rw [toBits_ofBits]

/-- The mask `(2 << d) - 1` has exactly the low `d + 1` bits set, for every width. -/
theorem toBits_mask : ∀ d, d < 32 → toBits (sub32 (shl 2 d) 1) = 2 ^ (d + 1) - 1 := by
  decide

theorem toBits_cast (x : Int) : ((toBits x : Nat) : Int) = x % 2 ^ 32 := by
  unfold toBits
  exact Int.toNat_of_nonneg (Int.emod_nonneg _ (by norm_num))

theorem ediv_emod_window (W : Int) (lo k : Nat) (h : lo + k ≤ 32) :
    ((W / 2 ^ lo) % 2 ^ 32) % 2 ^ k = ((W % 2 ^ 32) / 2 ^ lo) % 2 ^ k := by
  have hk : (2 : Int) ^ k ∣ 2 ^ 32 := pow_dvd_pow 2 (by omega)
  rw [Int.emod_emod_of_dvd _ hk]
  have e32 : (2 : Int) ^ 32 = 2 ^ lo * (2 ^ k * 2 ^ (32 - lo - k)) := by
    rw [← pow_add, ← pow_add]
    congr 1
    omega
  have hW : W = W % 2 ^ 32 + 2 ^ lo * (2 ^ k * 2 ^ (32 - lo - k) * (W / 2 ^ 32)) := by
    have := Int.emod_add_ediv W (2 ^ 32)
    rw [← mul_assoc, ← e32]
    omega
  have hlo : (2 : Int) ^ lo ≠ 0 := by positivity
  conv_lhs => rw [hW, Int.add_mul_ediv_left _ _ hlo, mul_assoc, Int.add_mul_emod_self_left]

/-- The arithmetic right shift agrees with the logical one on every window of bits that
stays inside the word. -/
theorem toBits_sar_mod (W : Int) (lo k : Nat) (h : lo + k ≤ 32) :
    toBits (sar W lo) % 2 ^ k = (toBits W / 2 ^ lo) % 2 ^ k := by
  have key := ediv_emod_window W lo k h
  have hs : sar W lo = W / 2 ^ lo := by
    unfold sar
    rw [Int.shiftRight_eq_div_pow]
    norm_cast
  apply Int.ofNat_inj.mp
  push_cast [toBits_cast, hs]
  exact key

/-- The mask of the specification, `(1 << (d+1)) - 1`, is the mask of the code. -/
theorem mask_spec_eq : ∀ d, d < 32 → sub32 (shl 1 (d + 1)) 1 = sub32 (shl 2 d) 1 := by
  decide

theorem field_lt (W : Int) (hi lo : Nat) : field W hi lo < 2 ^ (hi - lo + 1) :=
  Nat.mod_lt _ (by positivity)

/-- The result of `Bits` is the signed reading of the field. -/
theorem Bits_eq_ofBits (W : Int) (hi lo : Nat) (hlo : lo ≤ hi) (hhi : hi < 32) :
    Bits W hi lo = ofBits (field W hi lo) := by
  unfold Bits band field
  rw [toBits_mask (hi - lo) (by omega), Nat.and_pow_two_sub_one_eq_mod,
    toBits_sar_mod W lo (hi - lo + 1) (by omega)]

theorem toBits_Bits (W : Int) (hi lo : Nat) (hlo : lo ≤ hi) (hhi : hi < 32) :
    toBits (Bits W hi lo) = field W hi lo := by
  rw [Bits_eq_ofBits W hi lo hlo hhi, toBits_ofBits]
  apply Nat.mod_eq_of_lt
  have h1 := field_lt W hi lo
  have h2 : 2 ^ (hi - lo + 1) ≤ 2 ^ 32 := Nat.pow_le_pow_right (by norm_num) (by omega)
  omega

/-- A field of at most 31 bits is returned as a non-negative value. -/
theorem Bits_eq_field (W : Int) (hi lo : Nat) (hlo : lo ≤ hi) (hhi : hi < 32)
    (hw : hi - lo < 31) : Bits W hi lo = (field W hi lo : Int) := by
  rw [Bits_eq_ofBits W hi lo hlo hhi]
  apply ofBits_of_lt
  have h1 := field_lt W hi lo
  have h2 : 2 ^ (hi - lo + 1) ≤ 2 ^ 31 := Nat.pow_le_pow_right (by norm_num) (by omega)
  omega

/-- The full-width field is the word itself. -/
theorem Bits_full (W : Int) (hW : isInt32 W) : Bits W 31 0 = W := by
  rw [Bits_eq_ofBits W 31 0 (by omega) (by omega)]
  unfold field
  have h := toBits_lt W
  rw [pow_zero, Nat.div_one, Nat.mod_eq_of_lt (by simpa using h)]
  exact ofBits_toBits W hW

/-- Shifting a right-aligned window back in place is masking the word in place. -/
theorem window_shiftLeft (p lo k : Nat) :
    ((p / 2 ^ lo) % 2 ^ k) <<< lo = p &&& ((2 ^ k - 1) <<< lo) := by
  apply Nat.eq_of_testBit_eq
  intro j
  rw [← Nat.shiftRight_eq_div_pow]
  simp only [Nat.testBit_shiftLeft, Nat.testBit_mod_two_pow, Nat.testBit_and,
    Nat.testBit_two_pow_sub_one, Nat.testBit_shiftRight]
  by_cases hj : lo ≤ j
  · have e : lo + (j - lo) = j := by omega
    rw [e]
    by_cases hk : j - lo < k <;> simp [hj, hk]
  · simp [hj]

theorem mask_shiftLeft_lt (lo k : Nat) (h : lo + k ≤ 32) : (2 ^ k - 1) <<< lo < 2 ^ 32 := by
  rw [Nat.shiftLeft_eq]
  have h1 : 2 ^ k * 2 ^ lo ≤ 2 ^ 32 := by
    rw [← pow_add]
    exact Nat.pow_le_pow_right (by norm_num) (by omega)
  have h2 : 0 < 2 ^ lo := by positivity
  have h3 : 0 < 2 ^ k := by positivity
  have h4 : (2 ^ k - 1) * 2 ^ lo < 2 ^ k * 2 ^ lo :=
    Nat.mul_lt_mul_of_pos_right (by omega) h2
  omega

/-- The result of `BitField` is the signed reading of the field left in place. -/
theorem BitField_eq_ofBits (W : Int) (hi lo : Nat) (hlo : lo ≤ hi) (hhi : hi < 32) :
    BitField W hi lo = ofBits (field W hi lo <<< lo) := by
  unfold BitField band field
  rw [toBits_shl, toBits_mask (hi - lo) (by omega),
    Nat.mod_eq_of_lt (mask_shiftLeft_lt lo (hi - lo + 1) (by omega)), window_shiftLeft]

/-- Bits below position n of an operand of OR do not reach the bits from n upwards. -/
theorem or_low_div (a b n : Nat) (h : b < 2 ^ n) : (a ||| b) / 2 ^ n = a / 2 ^ n := by
  apply Nat.eq_of_testBit_eq
  intro j
  rw [← Nat.shiftRight_eq_div_pow, ← Nat.shiftRight_eq_div_pow]
  simp only [Nat.testBit_shiftRight, Nat.testBit_or]
  have hb : b.testBit (n + j) = false := by
    apply Nat.testBit_lt_two_pow
    exact lt_of_lt_of_le h (Nat.pow_le_pow_right (by norm_num) (by omega))
  rw [hb, Bool.or_false]

/-- A value OR-ed into the bits below 26 does not change the primary opcode field. -/
theorem Bits_opcode_bor (C f : Int) (h0 : 0 ≤ f) (h1 : f < 2 ^ 26) :
    Bits (bor C f) 31 26 = Bits C 31 26 := by
  rw [Bits_eq_ofBits _ 31 26 (by omega) (by omega), Bits_eq_ofBits _ 31 26 (by omega) (by omega)]
  unfold field
  rw [toBits_bor, or_low_div _ _ 26 (by rw [toBits_of_nonneg f h0 (by omega)]; omega)]

/-- The pattern of the D-form word with opcode index 14 and the fields rt, ra, imm. -/
theorem dform_pattern (rt ra imm : Nat) (hrt : rt < 32) (hra : ra < 32) (himm : imm < 65536) :
    ((2 ^ 26 * 14 ||| rt <<< 21) ||| ra <<< 16) ||| imm
      = 939524096 + 2097152 * rt + 65536 * ra + imm := by
  have e1 : 2 ^ 26 * 14 ||| rt <<< 21 = 2 ^ 21 * (448 + rt) := by
    rw [Nat.shiftLeft_eq, ← Nat.mul_add_lt_is_or (by omega)]
    omega
  have e2 : 2 ^ 21 * (448 + rt) ||| ra <<< 16 = 2 ^ 16 * (14336 + 32 * rt + ra) := by
    rw [Nat.shiftLeft_eq, ← Nat.mul_add_lt_is_or (by omega)]
    omega
  rw [e1, e2, ← Nat.mul_add_lt_is_or (by omega)]
  omega

/-! ## The claims -/

/-- C1 (amended). For every 32-bit word W and 0 <= lo <= hi < 32, `Bits(W, hi, lo)` equals
`(W >> lo) & ((1 << (hi-lo+1)) - 1)` and its 32-bit pattern is the field formed by bits
hi..lo of W, right-aligned. When the field is narrower than the word (hi - lo < 31) or
bit 31 of W is clear, the returned `int` is that unsigned integer and lies in
[0, 2^(hi-lo+1)). In the full-width case hi = 31, lo = 0 the returned `int` is W itself,
which is negative when bit 31 of W is set. -/
theorem Bits_extracts_field (W : Int) (hi lo : Nat) (hW : isInt32 W) (hlo : lo ≤ hi)
    (hhi : hi < 32) :
    Bits W hi lo = Bits_spec W hi lo ∧
    toBits (Bits W hi lo) = field W hi lo ∧
    (hi - lo < 31 ∨ 0 ≤ W →
      Bits W hi lo = (field W hi lo : Int) ∧ 0 ≤ Bits W hi lo ∧
        Bits W hi lo < 2 ^ (hi - lo + 1)) ∧
    (hi - lo = 31 → Bits W hi lo = W) := by
  have hfull : hi - lo = 31 → Bits W hi lo = W := by
    intro h
    have h1 : hi = 31 := by omega
    have h2 : lo = 0 := by omega
    subst h1 h2
    exact Bits_full W hW
  refine ⟨?_, toBits_Bits W hi lo hlo hhi, ?_, hfull⟩
  · unfold Bits Bits_spec
    rw [mask_spec_eq (hi - lo) (by omega)]
  · intro h
    have hlt := field_lt W hi lo
    have hval : Bits W hi lo = (field W hi lo : Int) := by
      by_cases hw : hi - lo < 31
      · exact Bits_eq_field W hi lo hlo hhi hw
      · have h0 : 0 ≤ W := by
          rcases h with h | h
          · exact absurd h hw
          · exact h
        have h31 : hi - lo = 31 := by omega
        have h1 : hi = 31 := by omega
        have h2 : lo = 0 := by omega
        subst h1 h2
        rw [Bits_full W hW]
        unfold field
        have hb := toBits_lt W
        rw [pow_zero, Nat.div_one, Nat.mod_eq_of_lt (by simpa using hb),
          toBits_of_nonneg W h0 (by unfold isInt32 at hW; omega)]
        omega
    rw [hval]
    refine ⟨rfl, by positivity, ?_⟩
    exact_mod_cast hlt

/-- Witness of C1 (amended): the register field RT of the word 0x7c221008. -/
theorem Bits_extracts_field_witness :
    isInt32 2082607112 ∧ 21 ≤ 25 ∧ 25 < 32 ∧
    (Bits 2082607112 25 21 = Bits_spec 2082607112 25 21 ∧
     toBits (Bits 2082607112 25 21) = field 2082607112 25 21 ∧
     (25 - 21 < 31 ∨ (0 : Int) ≤ 2082607112 →
       Bits 2082607112 25 21 = (field 2082607112 25 21 : Int) ∧
         0 ≤ Bits 2082607112 25 21 ∧ Bits 2082607112 25 21 < 2 ^ (25 - 21 + 1)) ∧
     (25 - 21 = 31 → Bits 2082607112 25 21 = 2082607112)) :=
  ⟨by decide, by decide, by decide,
    Bits_extracts_field 2082607112 25 21 (by decide) (by decide) (by decide)⟩

/-- C1 as stated fails: the word 0x80000000 (the `int` -2147483648, bit 31 set) with
hi = 31, lo = 0 satisfies the precondition, the unsigned integer formed by its bits 31..0
is 2147483648, and `Bits` returns -2147483648, which is not in [0, 2^32). -/
theorem Bits_full_width_negative :
    isInt32 (-2147483648) ∧ field (-2147483648) 31 0 = 2147483648 ∧
    Bits (-2147483648) 31 0 = -2147483648 ∧
    ¬ (Bits (-2147483648) 31 0 = (field (-2147483648) 31 0 : Int)) ∧
    ¬ (0 ≤ Bits (-2147483648) 31 0 ∧ Bits (-2147483648) 31 0 < 2 ^ (31 - 0 + 1)) := by
  decide

/-- C2. For every 32-bit word W and 0 <= lo <= hi < 32, shifting the right-aligned field
back in place gives the in-place field, `(Bits(W, hi, lo) << lo) == BitField(W, hi, lo)`,
and `BitField(W, hi, lo)` equals `W & (((1 << (hi-lo+1)) - 1) << lo)`, all as 32-bit
values. -/
theorem Bits_shl_eq_BitField (W : Int) (hi lo : Nat) (hlo : lo ≤ hi) (hhi : hi < 32) :
    shl (Bits W hi lo) lo = BitField W hi lo ∧
    BitField W hi lo = BitField_spec W hi lo := by
  constructor
  · rw [BitField_eq_ofBits W hi lo hlo hhi]
    unfold shl
    rw [toBits_Bits W hi lo hlo hhi]
  · unfold BitField BitField_spec
    rw [mask_spec_eq (hi - lo) (by omega)]

/-- Witness of C2: the opcode field of the word 0x80000000. -/
theorem Bits_shl_eq_BitField_witness :
    26 ≤ 31 ∧ 31 < 32 ∧
    (shl (Bits (-2147483648) 31 26) 26 = BitField (-2147483648) 31 26 ∧
     BitField (-2147483648) 31 26 = BitField_spec (-2147483648) 31 26) :=
  ⟨by decide, by decide, Bits_shl_eq_BitField (-2147483648) 31 26 (by decide) (by decide)⟩

/-- C3 (amended). For every primary opcode constant C and every 32-bit value f with no
bit set in positions 31-26, the word W = C | f satisfies
`Bits(W, 31, 26) == (C >> 26) & 0x3f`. This is `C >> 26` for the constants TWI .. EXT2,
which are non-negative; for the constants LWZ .. EXT4, whose bit 31 is set and which are
negative as `int`, `C >> 26` is negative and `Bits(W, 31, 26) == (C >> 26) + 64`. -/
theorem Bits_opcode_of_constant (C f : Int) (hC : C ∈ Opcode.all) (h0 : 0 ≤ f)
    (h1 : f < 2 ^ 26) :
    Bits (bor C f) 31 26 = band (sar C 26) 63 ∧
    (0 ≤ C → Bits (bor C f) 31 26 = sar C 26) ∧
    (C < 0 → Bits (bor C f) 31 26 = sar C 26 + 64) := by
  rw [Bits_opcode_bor C f h0 h1]
  have hall : ∀ D ∈ Opcode.all, Bits D 31 26 = band (sar D 26) 63 ∧
      (0 ≤ D → Bits D 31 26 = sar D 26) ∧ (D < 0 → Bits D 31 26 = sar D 26 + 64) := by
    decide
  exact hall C hC

/-- Witness of C3 (amended): the constant STW with the displacement 0x1008 in the word. -/
theorem Bits_opcode_of_constant_witness :
    Opcode.STW ∈ Opcode.all ∧ (0 : Int) ≤ 4104 ∧ (4104 : Int) < 2 ^ 26 ∧
    (Bits (bor Opcode.STW 4104) 31 26 = band (sar Opcode.STW 26) 63 ∧
     (0 ≤ Opcode.STW → Bits (bor Opcode.STW 4104) 31 26 = sar Opcode.STW 26) ∧
     (Opcode.STW < 0 → Bits (bor Opcode.STW 4104) 31 26 = sar Opcode.STW 26 + 64)) :=
  ⟨by decide, by decide, by decide,
    Bits_opcode_of_constant Opcode.STW 4104 (by decide) (by decide) (by decide)⟩

/-- C3 as stated fails: for the constant LWZ = 32 << 26 (the `int` -2147483648) and
f = 0, the word W = LWZ | 0 has `Bits(W, 31, 26) == 32` while `LWZ >> 26 == -32`. -/
theorem Bits_opcode_LWZ_ne_sar :
    Opcode.LWZ ∈ Opcode.all ∧ Opcode.LWZ = -2147483648 ∧
    Bits (bor Opcode.LWZ 0) 31 26 = 32 ∧ sar Opcode.LWZ 26 = -32 ∧
    ¬ (Bits (bor Opcode.LWZ 0) 31 26 = sar Opcode.LWZ 26) := by
  decide

/-- C4. For every rt and ra in [0, 32) and every imm in [0, 2^16), the word
W = ADDI | (rt << 21) | (ra << 16) | imm decodes to OpcodeValue(W) == 14,
RTValue(W) == rt, RAValue(W) == ra and Bits(W, 15, 0) == imm. -/
theorem dform_round_trip (rt ra imm : Int) (hrt0 : 0 ≤ rt) (hrt : rt < 32) (hra0 : 0 ≤ ra)
    (hra : ra < 32) (himm0 : 0 ≤ imm) (himm : imm < 2 ^ 16) :
    OpcodeValue (bor (bor (bor Opcode.ADDI (shl rt 21)) (shl ra 16)) imm) = 14 ∧
    RTValue (bor (bor (bor Opcode.ADDI (shl rt 21)) (shl ra 16)) imm) = rt ∧
    RAValue (bor (bor (bor Opcode.ADDI (shl rt 21)) (shl ra 16)) imm) = ra ∧
    Bits (bor (bor (bor Opcode.ADDI (shl rt 21)) (shl ra 16)) imm) 15 0 = imm := by
  lift rt to ℕ using hrt0
  lift ra to ℕ using hra0
  lift imm to ℕ using himm0
  have hrt1 : rt < 32 := by exact_mod_cast hrt
  have hra1 : ra < 32 := by exact_mod_cast hra
  have himm1 : imm < 65536 := by exact_mod_cast himm
  have hA : toBits Opcode.ADDI = 2 ^ 26 * 14 := by decide
  have hp : toBits (bor (bor (bor Opcode.ADDI (shl (rt : Int) 21)) (shl (ra : Int) 16)) imm)
      = 939524096 + 2097152 * rt + 65536 * ra + imm := by
    rw [toBits_bor, toBits_bor, toBits_bor, toBits_shl, toBits_shl, hA,
      toBits_natCast rt (by omega), toBits_natCast ra (by omega),
      toBits_natCast imm (by omega),
      Nat.mod_eq_of_lt (by rw [Nat.shiftLeft_eq]; omega),
      Nat.mod_eq_of_lt (by rw [Nat.shiftLeft_eq]; omega)]
    exact dform_pattern rt ra imm hrt1 hra1 himm1
  unfold OpcodeValue RTValue RAValue
  rw [Bits_eq_field _ 31 26 (by omega) (by omega) (by omega),
    Bits_eq_field _ 25 21 (by omega) (by omega) (by omega),
    Bits_eq_field _ 20 16 (by omega) (by omega) (by omega),
    Bits_eq_field _ 15 0 (by omega) (by omega) (by omega)]
  unfold field
  rw [hp]
  norm_num
  omega

/-- Witness of C4: the scenario of the specification, rt = 3, ra = 4, imm = 5. -/
theorem dform_round_trip_witness :
    OpcodeValue (bor (bor (bor Opcode.ADDI (shl 3 21)) (shl 4 16)) 5) = 14 ∧
    RTValue (bor (bor (bor Opcode.ADDI (shl 3 21)) (shl 4 16)) 5) = 3 ∧
    RAValue (bor (bor (bor Opcode.ADDI (shl 3 21)) (shl 4 16)) 5) = 4 ∧
    Bits (bor (bor (bor Opcode.ADDI (shl 3 21)) (shl 4 16)) 5) 15 0 = 5 :=
  dform_round_trip 3 4 5 (by decide) (by decide) (by decide) (by decide) (by decide)
    (by decide)

/-- C5 (amended). For every enumerated condition value c other than al and
kSpecialCondition (that is eq, ne, cs, cc, mi, pl, vs, vc, hi, ls, ge, lt, gt, le),
NegateCondition(NegateCondition(c)) is defined, no assertion failing in either call, and
equals c. -/
theorem NegateCondition_involutive (c : Int) (hc : c ∈ Condition.codes)
    (hal : c ≠ Condition.al) (hsp : c ≠ Condition.kSpecialCondition) :
    (NegateCondition c).bind NegateCondition = some c := by
  have hall : ∀ d ∈ Condition.codes, d ≠ Condition.al → d ≠ Condition.kSpecialCondition →
      (NegateCondition d).bind NegateCondition = some d := by
    decide
  exact hall c hc hal hsp

/-- Witness of C5 (amended): the condition hi, whose constant has bit 31 set. -/
theorem NegateCondition_involutive_witness :
    Condition.hi ∈ Condition.codes ∧ Condition.hi ≠ Condition.al ∧
    Condition.hi ≠ Condition.kSpecialCondition ∧
    (NegateCondition Condition.hi).bind NegateCondition = some Condition.hi :=
  ⟨by decide, by decide, by decide,
    NegateCondition_involutive Condition.hi (by decide) (by decide) (by decide)⟩

/-- C5 as stated fails at kSpecialCondition, an enumerated value other than al: its
negation is al, and the assertion of the second call fails on al. -/
theorem NegateCondition_special_not_involutive :
    Condition.kSpecialCondition ∈ Condition.codes ∧
    Condition.kSpecialCondition ≠ Condition.al ∧
    NegateCondition Condition.kSpecialCondition = some Condition.al ∧
    NegateCondition Condition.al = none ∧
    ¬ ((NegateCondition Condition.kSpecialCondition).bind NegateCondition
        = some Condition.kSpecialCondition) := by
  decide

/-- C6. For every enumerated condition value c (eq .. al, kSpecialCondition and the
aliases hs and lo), ReverseCondition(ReverseCondition(c)) == c. -/
theorem ReverseCondition_involutive (c : Int)
    (hc : c ∈ Condition.codes ++ [Condition.hs, Condition.lo]) :
    ReverseCondition (ReverseCondition c) = c := by
  have hall : ∀ d ∈ Condition.codes ++ [Condition.hs, Condition.lo],
      ReverseCondition (ReverseCondition d) = d := by
    decide
  exact hall c hc

/-- Witness of C6: the condition lt, which reversal sends to gt and back. -/
theorem ReverseCondition_involutive_witness :
    Condition.lt ∈ Condition.codes ++ [Condition.hs, Condition.lo] ∧
    ReverseCondition (ReverseCondition Condition.lt) = Condition.lt :=
  ⟨by decide, ReverseCondition_involutive Condition.lt (by decide)⟩

/-- C7. For each of the fourteen conditions eq .. le, NegateCondition succeeds and
returns one of these fourteen conditions, whose documented flag predicate holds, under
every assignment of the flags N, Z, C, V, exactly when the predicate of the argument
does not. -/
theorem NegateCondition_complement (c : Int) (hc : c ∈ flagConditions) :
    ∃ n ∈ flagConditions, NegateCondition c = some n ∧
      ∀ N Z C V : Bool, holds n N Z C V = !holds c N Z C V := by
  have hall : ∀ d ∈ flagConditions, ∃ n ∈ flagConditions, NegateCondition d = some n ∧
      ∀ N Z C V : Bool, holds n N Z C V = !holds d N Z C V := by
    decide
  exact hall c hc

/-- Witness of C7: the condition gt, whose complement is le. -/
theorem NegateCondition_complement_witness :
    Condition.gt ∈ flagConditions ∧
    ∃ n ∈ flagConditions, NegateCondition Condition.gt = some n ∧
      ∀ N Z C V : Bool, holds n N Z C V = !holds Condition.gt N Z C V :=
  ⟨by decide, NegateCondition_complement Condition.gt (by decide)⟩

/-- C8. NegateCondition fails exactly on al: for every argument the assertion fails if
and only if the argument is al, and for every enumerated condition value c other than al
it returns c XOR ne, which is c with bit 28 flipped and is again one of the sixteen
enumerated condition values. -/
theorem NegateCondition_fails_iff_al :
    (∀ c : Int, NegateCondition c = none ↔ c = Condition.al) ∧
    NegateCondition Condition.al = none ∧
    (∀ c ∈ Condition.codes, c ≠ Condition.al →
      NegateCondition c = some (bxor c Condition.ne) ∧
      toBits (bxor c Condition.ne) = toBits c ^^^ 2 ^ 28 ∧
      bxor c Condition.ne ∈ Condition.codes) := by
  refine ⟨?_, by decide, by decide⟩
  intro c
  by_cases h : c = Condition.al
  · rw [h]
    decide
  · simp [NegateCondition, ASSERT, h]

/-- C9. ReverseCondition exchanges lo and hi, hs and ls, lt and gt, ge and le, and
returns each of eq, ne, mi, pl, vs, vc, al and kSpecialCondition unchanged; being a
function with a default case it returns a value on every argument, which is the argument
itself outside the eight exchanged values. -/
theorem ReverseCondition_table :
    (ReverseCondition Condition.lo = Condition.hi ∧
    ReverseCondition Condition.hi = Condition.lo ∧
    ReverseCondition Condition.hs = Condition.ls ∧
    ReverseCondition Condition.ls = Condition.hs ∧
    ReverseCondition Condition.lt = Condition.gt ∧
    ReverseCondition Condition.gt = Condition.lt ∧
    ReverseCondition Condition.ge = Condition.le ∧
    ReverseCondition Condition.le = Condition.ge ∧
    ReverseCondition Condition.eq = Condition.eq ∧
    ReverseCondition Condition.ne = Condition.ne ∧
    ReverseCondition Condition.mi = Condition.mi ∧
    ReverseCondition Condition.pl = Condition.pl ∧
    ReverseCondition Condition.vs = Condition.vs ∧
    ReverseCondition Condition.vc = Condition.vc ∧
    ReverseCondition Condition.al = Condition.al ∧
    ReverseCondition Condition.kSpecialCondition = Condition.kSpecialCondition) ∧
    (∀ c : Int, c ∉ [Condition.lo, Condition.hi, Condition.hs, Condition.ls, Condition.lt,
        Condition.gt, Condition.ge, Condition.le] → ReverseCondition c = c) := by
  refine ⟨by decide, ?_⟩
  intro c hc
  simp only [List.mem_cons, List.mem_singleton, List.not_mem_nil, or_false, not_or] at hc
  obtain ⟨h1, h2, h3, h4, h5, h6, h7, h8⟩ := hc
  simp [ReverseCondition, h1, h2, h3, h4, h5, h6, h7, h8]

/-- C10. The sixteen condition codes eq .. kSpecialCondition are pairwise distinct
32-bit values; the constant of index i (eq first) has bits 27-0 clear and
`Bits(constant, 31, 28) == i`; kNumberOfConditions is 16, and the aliases hs and lo equal
cs and cc. -/
theorem Condition_codes_layout :
    Condition.codes.Nodup ∧ Condition.codes.length = 16 ∧
    (∀ c ∈ Condition.codes, isInt32 c) ∧
    Condition.codes.map (fun c => Bits c 27 0) = List.replicate 16 0 ∧
    Condition.codes.map (fun c => toBits c % 2 ^ 28) = List.replicate 16 0 ∧
    Condition.codes.map (fun c => Bits c 31 28)
      = [0, 1, 2, 3, 4, 5, 6, 7, 8, 9, 10, 11, 12, 13, 14, 15] ∧
    Condition.kNumberOfConditions = 16 ∧
    Condition.hs = Condition.cs ∧ Condition.lo = Condition.cc := by
  decide

/-- C11. For every constant C of enum Opcode, `C & kOpcodeMask == C` and C has no bit
set below bit 26; the pattern of kOpcodeMask has exactly the bits 31-26 set, so that
masking a word with it is reading its bit field 31-26 in place; the Opcode constants are
pairwise distinct, so the masked word equals at most one of them. -/
theorem kOpcodeMask_recovers_opcode :
    (∀ C ∈ Opcode.all, band C kOpcodeMask = C ∧ toBits C % 2 ^ 26 = 0) ∧
    toBits kOpcodeMask = 2 ^ 32 - 2 ^ 26 ∧
    (∀ W : Int, band W kOpcodeMask = BitField W 31 26) ∧
    Opcode.all.Nodup ∧
    (∀ W : Int, ∀ C ∈ Opcode.all, ∀ D ∈ Opcode.all,
      band W kOpcodeMask = C → band W kOpcodeMask = D → C = D) := by
  refine ⟨by decide, by decide, ?_, by decide, ?_⟩
  · intro W
    have hm : shl (sub32 (shl 2 (31 - 26)) 1) 26 = kOpcodeMask := by decide
    unfold BitField
    rw [hm]
  · intro W C _ D _ hC hD
    rw [← hC, ← hD]

/-- C12, the code at the failing input. The constant CMPL = 32 << 1 of enum OpcodeExt2
is not recovered by kExt2OpcodeMask = 0x1f << 1, which covers bits 5-1 only: the masked
value is 0, the constant CMP. The mask recovers only the twelve constants CMP .. ANDX,
whose index is below 32. -/
theorem kExt2OpcodeMask_loses_CMPL :
    OpcodeExt2.CMPL ∈ OpcodeExt2.all ∧ OpcodeExt2.CMPL = 64 ∧ kExt2OpcodeMask = 62 ∧
    band OpcodeExt2.CMPL kExt2OpcodeMask = OpcodeExt2.CMP ∧
    band OpcodeExt2.CMPL kExt2OpcodeMask ≠ OpcodeExt2.CMPL ∧
    OpcodeExt2.all.filter (fun v => band v kExt2OpcodeMask = v)
      = [OpcodeExt2.CMP, OpcodeExt2.TW, OpcodeExt2.SUBFCX, OpcodeExt2.ADDCX,
         OpcodeExt2.MULHWUX, OpcodeExt2.MFCR, OpcodeExt2.LWARX, OpcodeExt2.LDX,
         OpcodeExt2.LWZX, OpcodeExt2.SLWX, OpcodeExt2.CNTLZWX, OpcodeExt2.ANDX] := by
  decide

/-- C13. The field masks of the conditional branch form, kOpcodeMask, kBOMask, kBIMask,
kBDMask, kAAMask and kLKMask, are pairwise disjoint: the bitwise AND of any two distinct
masks of the list is 0. -/
theorem branchMasks_disjoint :
    branchMasks.Pairwise (fun a b => band a b = 0) ∧
    (∀ i : Fin branchMasks.length, ∀ j : Fin branchMasks.length, i ≠ j →
      band (branchMasks.get i) (branchMasks.get j) = 0) := by
  decide

/-- C14. Every constant of enum FAKE_OPCODE_T from fMRS to fLITHIUM110 is an integer in
[0, 128), so it fits in the low FAKE_OPCODE_HIGH_BIT = 7 bits; the tags are pairwise
distinct; the end marker fLastFaker is one past the last tag and at most 128. -/
theorem fake_opcode_tags_fit :
    (∀ t ∈ FAKE_OPCODE_T.all, 0 ≤ t ∧ t < 128 ∧ t < 2 ^ FAKE_OPCODE_HIGH_BIT ∧
      band t (sub32 (shl 1 FAKE_OPCODE_HIGH_BIT) 1) = t) ∧
    FAKE_OPCODE_HIGH_BIT = 7 ∧
    FAKE_OPCODE_T.all.Nodup ∧
    FAKE_OPCODE_T.fLastFaker = FAKE_OPCODE_T.fLITHIUM110 + 1 ∧
    FAKE_OPCODE_T.fLastFaker = 111 ∧
    FAKE_OPCODE_T.fLastFaker ≤ 128 := by
  decide

/-- The accessor `Bit` returns the bit of the pattern at the position, as 0 or 1. -/
theorem Bit_eq (W : Int) (n : Nat) (h : n < 32) :
    Bit W n = ((toBits W / 2 ^ n % 2 : Nat) : Int) := by
  have h1 : toBits 1 = 2 ^ 1 - 1 := by decide
  unfold Bit band
  rw [h1, Nat.and_pow_two_sub_one_eq_mod, toBits_sar_mod W n 1 (by omega)]
  apply ofBits_of_lt
  have h2 : toBits W / 2 ^ n % 2 ^ 1 < 2 ^ 1 := Nat.mod_lt _ (by norm_num)
  omega

/-- The pattern of a word made of a constant multiple of 128 and a tag below 128. -/
theorem toBits_bor_tag (A : Int) (k t : Nat) (hA : toBits A = 2 ^ 7 * k) (ht : t < 128) :
    toBits (bor A (t : Int)) = 128 * k + t := by
  rw [toBits_bor, hA, toBits_natCast t (by omega), ← Nat.mul_add_lt_is_or (by omega)]

/-- C15. For every tag t in [0, 128), the words F = FAKE_OPCODE | FAKER_SUBOPCODE | t and
M = FAKE_OPCODE | MARKER_SUBOPCODE | t have the same primary opcode, 1, and the same bits
24-0, which are t; bit 25 is 0 in F and 1 in M, the two words differ in exactly that bit
and are not equal. -/
theorem faker_marker_discriminated (t : Int) (h0 : 0 ≤ t) (h1 : t < 128) :
    Bits (bor (bor FAKE_OPCODE FAKER_SUBOPCODE) t) 31 26 = 1 ∧
    Bits (bor (bor FAKE_OPCODE MARKER_SUBOPCODE) t) 31 26 = 1 ∧
    Bits (bor (bor FAKE_OPCODE FAKER_SUBOPCODE) t) 24 0 = t ∧
    Bits (bor (bor FAKE_OPCODE MARKER_SUBOPCODE) t) 24 0 = t ∧
    Bit (bor (bor FAKE_OPCODE FAKER_SUBOPCODE) t) 25 = 0 ∧
    Bit (bor (bor FAKE_OPCODE MARKER_SUBOPCODE) t) 25 = 1 ∧
    toBits (bor (bor FAKE_OPCODE MARKER_SUBOPCODE) t)
      = toBits (bor (bor FAKE_OPCODE FAKER_SUBOPCODE) t) + 2 ^ 25 ∧
    bor (bor FAKE_OPCODE FAKER_SUBOPCODE) t ≠ bor (bor FAKE_OPCODE MARKER_SUBOPCODE) t := by
  lift t to ℕ using h0
  have ht : t < 128 := by exact_mod_cast h1
  have hF := toBits_bor_tag (bor FAKE_OPCODE FAKER_SUBOPCODE) 524288 t (by decide) ht
  have hM := toBits_bor_tag (bor FAKE_OPCODE MARKER_SUBOPCODE) 786432 t (by decide) ht
  rw [Bits_eq_field _ 31 26 (by omega) (by omega) (by omega),
    Bits_eq_field _ 31 26 (by omega) (by omega) (by omega),
    Bits_eq_field _ 24 0 (by omega) (by omega) (by omega),
    Bits_eq_field _ 24 0 (by omega) (by omega) (by omega),
    Bit_eq _ 25 (by omega), Bit_eq _ 25 (by omega)]
  unfold field
  rw [hF, hM]
  refine ⟨?_, ?_, ?_, ?_, ?_, ?_, ?_, ?_⟩
  · norm_num; omega
  · norm_num; omega
  · norm_num; omega
  · norm_num; omega
  · norm_num; omega
  · norm_num; omega
  · norm_num; omega
  · intro he
    have h2 := congrArg toBits he
    rw [hF, hM] at h2
    omega

/-- Witness of C15: the tag fADD = 43 of the scenario. -/
theorem faker_marker_discriminated_witness :
    FAKE_OPCODE_T.fADD = 43 ∧ (0 : Int) ≤ 43 ∧ (43 : Int) < 128 ∧
    (Bits (bor (bor FAKE_OPCODE FAKER_SUBOPCODE) 43) 31 26 = 1 ∧
     Bits (bor (bor FAKE_OPCODE MARKER_SUBOPCODE) 43) 31 26 = 1 ∧
     Bits (bor (bor FAKE_OPCODE FAKER_SUBOPCODE) 43) 24 0 = 43 ∧
     Bits (bor (bor FAKE_OPCODE MARKER_SUBOPCODE) 43) 24 0 = 43 ∧
     Bit (bor (bor FAKE_OPCODE FAKER_SUBOPCODE) 43) 25 = 0 ∧
     Bit (bor (bor FAKE_OPCODE MARKER_SUBOPCODE) 43) 25 = 1 ∧
     toBits (bor (bor FAKE_OPCODE MARKER_SUBOPCODE) 43)
       = toBits (bor (bor FAKE_OPCODE FAKER_SUBOPCODE) 43) + 2 ^ 25 ∧
     bor (bor FAKE_OPCODE FAKER_SUBOPCODE) 43 ≠ bor (bor FAKE_OPCODE MARKER_SUBOPCODE) 43) :=
  ⟨by decide, by decide, by decide, faker_marker_discriminated 43 (by decide) (by decide)⟩

/-- C16. No constant of enum Opcode has primary opcode 1: for every Opcode constant C,
`C & kOpcodeMask` is not FAKE_OPCODE; and a word made of FAKE_OPCODE and any bits 25-0
has OpcodeValue 1, which differs from the OpcodeValue of every word made of a native
opcode constant and any bits 25-0. -/
theorem fake_opcode_reserved (C x f : Int) (hC : C ∈ Opcode.all) (hx0 : 0 ≤ x)
    (hx : x < 2 ^ 26) (hf0 : 0 ≤ f) (hf : f < 2 ^ 26) :
    band C kOpcodeMask ≠ FAKE_OPCODE ∧
    OpcodeValue (bor FAKE_OPCODE x) = 1 ∧
    OpcodeValue (bor C f) ≠ 1 ∧
    OpcodeValue (bor FAKE_OPCODE x) ≠ OpcodeValue (bor C f) := by
  have hall : ∀ D ∈ Opcode.all, band D kOpcodeMask ≠ FAKE_OPCODE ∧ Bits D 31 26 ≠ 1 := by
    decide
  have hfake : Bits FAKE_OPCODE 31 26 = 1 := by decide
  unfold OpcodeValue
  rw [Bits_opcode_bor FAKE_OPCODE x hx0 hx, Bits_opcode_bor C f hf0 hf, hfake]
  exact ⟨(hall C hC).1, rfl, (hall C hC).2, fun h => (hall C hC).2 h.symm⟩

/-- Witness of C16: the constant TWI, the native opcode nearest to 1, against the faker
word of the tag 43. -/
theorem fake_opcode_reserved_witness :
    Opcode.TWI ∈ Opcode.all ∧
    (band Opcode.TWI kOpcodeMask ≠ FAKE_OPCODE ∧
     OpcodeValue (bor FAKE_OPCODE 43) = 1 ∧
     OpcodeValue (bor Opcode.TWI 4104) ≠ 1 ∧
     OpcodeValue (bor FAKE_OPCODE 43) ≠ OpcodeValue (bor Opcode.TWI 4104)) :=
  ⟨by decide, fake_opcode_reserved Opcode.TWI 43 4104 (by decide) (by decide) (by decide)
    (by decide) (by decide)⟩

/-- The accessor `SvcValue` returns the word modulo 2^24. -/
theorem SvcValue_eq_emod (W : Int) : SvcValue W = W % 2 ^ 24 := by
  unfold SvcValue
  rw [Bits_eq_field _ 23 0 (by omega) (by omega) (by omega)]
  unfold field
  have hb := toBits_cast W
  norm_num at hb ⊢
  omega

/-- A code below 2^24 under any upper bits is returned unchanged. -/
theorem SvcValue_bor (u c : Int) (hc0 : 0 ≤ c) (hc : c < 2 ^ 24) :
    SvcValue (bor (shl u 24) c) = c := by
  lift c to ℕ using hc0
  have hc1 : c < 2 ^ 24 := by exact_mod_cast hc
  have hX : (toBits u <<< 24) % 2 ^ 32 = 2 ^ 24 * (toBits u % 256) := by
    rw [Nat.shiftLeft_eq]
    omega
  unfold SvcValue
  rw [Bits_eq_field _ 23 0 (by omega) (by omega) (by omega)]
  unfold field
  rw [toBits_bor, toBits_shl, hX, toBits_natCast c (by omega), ← Nat.mul_add_lt_is_or hc1]
  norm_num at hc1 ⊢
  omega

/-- The macro `SIGN_EXT_IMM16` in closed form. -/
theorem SIGN_EXT_IMM16_eq (imm : Int) :
    SIGN_EXT_IMM16 imm
      = if imm % 65536 < 32768 then imm % 65536 else imm % 65536 - 65536 := by
  unfold SIGN_EXT_IMM16 sar shl ofBits toBits
  rw [Int.shiftRight_eq_div_pow, Nat.shiftLeft_eq]
  split <;> split <;> omega

/-- The result of `OpcodeField` is a multiple of 2^21 below 2^25. -/
theorem OpcodeField_range (W : Int) : 0 ≤ OpcodeField W ∧ OpcodeField W < 2 ^ 25 := by
  unfold OpcodeField
  rw [BitField_eq_ofBits W 24 21 (by omega) (by omega)]
  have h1 := field_lt W 24 21
  have h2 : field W 24 21 <<< 21 < 2 ^ 31 := by
    rw [Nat.shiftLeft_eq]
    norm_num at h1 ⊢
    omega
  rw [ofBits_of_lt _ h2, Nat.shiftLeft_eq]
  norm_num at h1 ⊢
  omega

/-- C17. For every word W, SvcValue(W) equals the low 24 bits of W, W mod 2^24, a value
in [0, 2^24); so for every code c in [0, 2^24), well-known or not, and any upper bits u,
`SvcValue((u << 24) | c) == c`, and a word carrying kBreakpoint decodes to kBreakpoint. -/
theorem SvcValue_passes_payload (W u c : Int) (hc0 : 0 ≤ c) (hc : c < 2 ^ 24) :
    SvcValue W = W % 2 ^ 24 ∧ 0 ≤ SvcValue W ∧ SvcValue W < 2 ^ 24 ∧
    SvcValue (bor (shl u 24) c) = c ∧
    SvcValue (bor (shl u 24) kBreakpoint) = kBreakpoint := by
  have h := SvcValue_eq_emod W
  refine ⟨h, ?_, ?_, SvcValue_bor u c hc0 hc,
    SvcValue_bor u kBreakpoint (by decide) (by decide)⟩
  · rw [h]
    omega
  · rw [h]
    omega

/-- Witness of C17: the word 0x7d9ff808, the upper bits 0x7d and the code 0x123456, which
is none of the well-known codes. -/
theorem SvcValue_passes_payload_witness :
    (0 : Int) ≤ 1193046 ∧ (1193046 : Int) < 2 ^ 24 ∧
    (SvcValue 2107635720 = 2107635720 % 2 ^ 24 ∧ 0 ≤ SvcValue 2107635720 ∧
     SvcValue 2107635720 < 2 ^ 24 ∧
     SvcValue (bor (shl 125 24) 1193046) = 1193046 ∧
     SvcValue (bor (shl 125 24) kBreakpoint) = kBreakpoint) :=
  ⟨by decide, by decide, SvcValue_passes_payload 2107635720 125 1193046 (by decide)
    (by decide)⟩

/-- C18, the code at the failing input. The standard codes kBreakpoint = 0x821008 and
kInfo = 0x9ff808 have bit 23 set: their AND with kStopCode is kStopCode, not 0, and
they are above kMaxStopCode. Only kCallRtRedirected has bit 23 clear. -/
theorem standard_codes_bit23 :
    kStopCode = 2 ^ 23 ∧ kMaxStopCode = 2 ^ 23 - 1 ∧
    band kBreakpoint kStopCode = kStopCode ∧ band kBreakpoint kStopCode ≠ 0 ∧
    Bit kBreakpoint 23 = 1 ∧ ¬ (kBreakpoint ≤ kMaxStopCode) ∧
    band kInfo kStopCode = kStopCode ∧ band kInfo kStopCode ≠ 0 ∧
    Bit kInfo 23 = 1 ∧ ¬ (kInfo ≤ kMaxStopCode) ∧
    band kCallRtRedirected kStopCode = 0 ∧ kCallRtRedirected ≤ kMaxStopCode := by
  decide

/-- C19. For every value imm, the result r of SIGN_EXT_IMM16(imm) satisfies
-32768 <= r <= 32767 and is congruent to imm modulo 2^16; r is imm mod 2^16 when bit 15
of imm is clear and (imm mod 2^16) - 65536 when bit 15 is set; and the macro is
idempotent. -/
theorem SIGN_EXT_IMM16_sign_extends (imm : Int) :
    -32768 ≤ SIGN_EXT_IMM16 imm ∧ SIGN_EXT_IMM16 imm ≤ 32767 ∧
    SIGN_EXT_IMM16 imm % 2 ^ 16 = imm % 2 ^ 16 ∧
    (Bit imm 15 = 0 ∨ Bit imm 15 = 1) ∧
    (Bit imm 15 = 0 → SIGN_EXT_IMM16 imm = imm % 2 ^ 16) ∧
    (Bit imm 15 = 1 → SIGN_EXT_IMM16 imm = imm % 2 ^ 16 - 65536) ∧
    SIGN_EXT_IMM16 (SIGN_EXT_IMM16 imm) = SIGN_EXT_IMM16 imm := by
  have hidem := SIGN_EXT_IMM16_eq (SIGN_EXT_IMM16 imm)
  have hr := SIGN_EXT_IMM16_eq imm
  have hbit := Bit_eq imm 15 (by omega)
  have hb := toBits_cast imm
  generalize SIGN_EXT_IMM16 (SIGN_EXT_IMM16 imm) = rr at hidem
  generalize SIGN_EXT_IMM16 imm = r at hidem hr
  generalize Bit imm 15 = b at hbit
  generalize toBits imm = p at hbit hb
  norm_num at hbit hb ⊢
  split at hr <;> split at hidem <;> omega

/-- C20, the code at the failing input. The word 0x38640005 holds the constant ADDI in
its bits 31-26 (its AND with kOpcodeMask is ADDI, its OpcodeValue is 14), and
OpcodeField, which reads the bit field 24-21, returns 3 << 21, not ADDI. On no word
does OpcodeField return a constant of enum Opcode, its result being below 2^25. -/
theorem OpcodeField_misses_opcode :
    band 946077701 kOpcodeMask = Opcode.ADDI ∧ Opcode.ADDI ∈ Opcode.all ∧
    OpcodeValue 946077701 = 14 ∧
    OpcodeField 946077701 = shl 3 21 ∧
    OpcodeField 946077701 ≠ Opcode.ADDI ∧
    OpcodeField Opcode.ADDI = 0 ∧
    (∀ W : Int, OpcodeField W ∉ Opcode.all) := by
  refine ⟨by decide, by decide, by decide, by decide, by decide, by decide, ?_⟩
  intro W hW
  have hall : ∀ C ∈ Opcode.all, ¬ (0 ≤ C ∧ C < 2 ^ 25) := by decide
  exact hall _ hW (OpcodeField_range W)

/-- The canonical name of a valid index is looked up back to that index. -/
theorem NameTable.lookup_getElem (T : NameTable) (i : Nat) (h : i < 32) :
    ∃ n, T.names[i]? = some n ∧ T.lookup n = some (i : Int) := by
  have hl : i < T.names.length := by
    rw [T.size]
    exact h
  refine ⟨T.names[i], List.getElem?_eq_getElem hl, ?_⟩
  unfold NameTable.lookup
  rw [List.indexOf_getElem T.distinct i hl, if_pos hl]

/-- The result of `bor` is the signed reading of its own pattern. -/
theorem bor_eq_ofBits (a b : Int) : bor a b = ofBits (toBits (bor a b)) := by
  rw [toBits_bor]
  rfl

/-- Six fields packed with OR at the positions 26, 21, 16, 11, 6 and 0 add up. -/
theorem or_fields (a b c d e f : Nat) (ha : a < 64) (hb : b < 32) (hc : c < 32)
    (hd : d < 32) (he : e < 32) (hf : f < 64) :
    ((((a <<< 26 % 2 ^ 32 ||| b <<< 21 % 2 ^ 32) ||| c <<< 16 % 2 ^ 32)
        ||| d <<< 11 % 2 ^ 32) ||| e <<< 6 % 2 ^ 32) ||| f
      = 67108864 * a + 2097152 * b + 65536 * c + 2048 * d + 64 * e + f := by
  simp only [Nat.shiftLeft_eq]
  rw [Nat.mod_eq_of_lt (by omega), Nat.mod_eq_of_lt (by omega), Nat.mod_eq_of_lt (by omega),
    Nat.mod_eq_of_lt (by omega), Nat.mod_eq_of_lt (by omega)]
  have e0 : a * 2 ^ 26 = 2 ^ 26 * a := Nat.mul_comm _ _
  have e1 : 2 ^ 26 * a ||| b * 2 ^ 21 = 2 ^ 21 * (32 * a + b) := by
    rw [← Nat.mul_add_lt_is_or (by omega)]
    omega
  have e2 : 2 ^ 21 * (32 * a + b) ||| c * 2 ^ 16 = 2 ^ 16 * (1024 * a + 32 * b + c) := by
    rw [← Nat.mul_add_lt_is_or (by omega)]
    omega
  have e3 : 2 ^ 16 * (1024 * a + 32 * b + c) ||| d * 2 ^ 11
      = 2 ^ 11 * (32768 * a + 1024 * b + 32 * c + d) := by
    rw [← Nat.mul_add_lt_is_or (by omega)]
    omega
  have e4 : 2 ^ 11 * (32768 * a + 1024 * b + 32 * c + d) ||| e * 2 ^ 6
      = 2 ^ 6 * (1048576 * a + 32768 * b + 1024 * c + 32 * d + e) := by
    rw [← Nat.mul_add_lt_is_or (by omega)]
    omega
  rw [e0, e1, e2, e3, e4, ← Nat.mul_add_lt_is_or (by omega)]
  omega

/-- The field of bits 5-1 in place is the field of bits 10-1 in place under the mask
`0x1f << 1`. -/
theorem BitField_five_of_ten (W : Int) :
    BitField W 5 1 = band (BitField W 10 1) kExt2OpcodeMask := by
  have m1 : shl (sub32 (shl 2 (5 - 1)) 1) 1 = kExt2OpcodeMask := by decide
  have m2 : toBits (shl (sub32 (shl 2 (10 - 1)) 1) 1) &&& toBits kExt2OpcodeMask
      = toBits kExt2OpcodeMask := by decide
  unfold BitField
  rw [m1]
  unfold band
  rw [toBits_ofBits, Nat.mod_eq_of_lt (Nat.and_lt_two_pow _ (toBits_lt _)),
    Nat.and_assoc, m2]

/-- C21. For every register index i in [0, 32), `Registers::Number(Registers::Name(i))`
is i, whatever the table of aliases holds, and `FPRegisters::Number(FPRegisters::Name(i))`
is i, on tables of 32 pairwise distinct canonical names. -/
theorem register_name_round_trip (R F : NameTable) (aliases_ : List RegisterAlias)
    (i : Int) (h0 : 0 ≤ i) (h1 : i < 32) :
    (∃ n, Registers.Name R i = some n ∧ Registers.Number R aliases_ n = i) ∧
    (∃ n, FPRegisters.Name F i = some n ∧ FPRegisters.Number F n = i) := by
  lift i to ℕ using h0
  have hi : i < 32 := by exact_mod_cast h1
  obtain ⟨n, hn, hl⟩ := R.lookup_getElem i hi
  obtain ⟨m, hm, hk⟩ := F.lookup_getElem i hi
  refine ⟨⟨n, ?_, ?_⟩, ⟨m, ?_, ?_⟩⟩
  · unfold Registers.Name kNumRegisters
    rw [if_pos ⟨by omega, h1⟩, Int.toNat_natCast]
    exact hn
  · unfold Registers.Number
    rw [hl]
  · unfold FPRegisters.Name kNumFPRegisters kNumFPDoubleRegisters
    rw [if_pos ⟨by omega, h1⟩, Int.toNat_natCast]
    exact hm
  · unfold FPRegisters.Number
    rw [hk]

/-- Witness of C21: the last index, 31, on the table of the numeric names, with an alias
table that gives the name r31 to another register. -/
theorem register_name_round_trip_witness :
    (0 : Int) ≤ 31 ∧ (31 : Int) < 32 ∧
    ((∃ n, Registers.Name numericNames 31 = some n ∧
        Registers.Number numericNames [⟨1, "r31"⟩, ⟨1, "sp"⟩] n = 31) ∧
     (∃ n, FPRegisters.Name numericNames 31 = some n ∧
        FPRegisters.Number numericNames n = 31)) :=
  ⟨by decide, by decide,
    register_name_round_trip numericNames numericNames [⟨1, "r31"⟩, ⟨1, "sp"⟩] 31
      (by decide) (by decide)⟩

/-- C22, the code at the failing input. The constant DCBNZ = 16 << 21 of enum BOfield,
documented as bits 25-21, is not recovered by kBOfieldMask = 0x1f << 20, which covers
bits 24-20: the masked value is 0, and BA masked is BF. That mask recovers only the six
constants below 16 << 21, while kBOMask = 0x1f << 21 recovers all nine. -/
theorem kBOfieldMask_loses_DCBNZ :
    BOfield.DCBNZ ∈ BOfield.all ∧
    band BOfield.DCBNZ kBOfieldMask = 0 ∧
    band BOfield.DCBNZ kBOfieldMask ≠ BOfield.DCBNZ ∧
    band BOfield.BA kBOfieldMask = BOfield.BF ∧
    toBits kBOfieldMask = 2 ^ 25 - 2 ^ 20 ∧ toBits kBOMask = 2 ^ 26 - 2 ^ 21 ∧
    BOfield.all.filter (fun v => band v kBOfieldMask = v)
      = [BOfield.DCBNZF, BOfield.DCBEZF, BOfield.BF, BOfield.DCBNZT, BOfield.DCBEZT,
         BOfield.BT] ∧
    (∀ v ∈ BOfield.all, band v kBOMask = v) := by
  decide

/-- C23. For every 32-bit word W, RSValue(W) == RTValue(W); each of RTValue, RAValue,
RBValue and RCValue lies in [0, 32), below kNumRegisters; OpcodeValue(W) lies in [0, 64);
and W is `(OpcodeValue(W) << 26) | (RTValue(W) << 21) | (RAValue(W) << 16) |
(RBValue(W) << 11) | (RCValue(W) << 6) | Bits(W, 5, 0)` as a 32-bit value. -/
theorem accessors_partition_word (W : Int) (hW : isInt32 W) :
    RSValue W = RTValue W ∧
    (0 ≤ RTValue W ∧ RTValue W < 32 ∧ RTValue W < kNumRegisters) ∧
    (0 ≤ RAValue W ∧ RAValue W < 32 ∧ RAValue W < kNumRegisters) ∧
    (0 ≤ RBValue W ∧ RBValue W < 32 ∧ RBValue W < kNumRegisters) ∧
    (0 ≤ RCValue W ∧ RCValue W < 32 ∧ RCValue W < kNumRegisters) ∧
    (0 ≤ OpcodeValue W ∧ OpcodeValue W < 64) ∧
    bor (bor (bor (bor (bor (shl (OpcodeValue W) 26) (shl (RTValue W) 21))
      (shl (RAValue W) 16)) (shl (RBValue W) 11)) (shl (RCValue W) 6)) (Bits W 5 0) = W := by
  have hp := toBits_lt W
  have hO := Bits_eq_field W 31 26 (by omega) (by omega) (by omega)
  have hT := Bits_eq_field W 25 21 (by omega) (by omega) (by omega)
  have hA := Bits_eq_field W 20 16 (by omega) (by omega) (by omega)
  have hB := Bits_eq_field W 15 11 (by omega) (by omega) (by omega)
  have hC := Bits_eq_field W 10 6 (by omega) (by omega) (by omega)
  have hL := Bits_eq_field W 5 0 (by omega) (by omega) (by omega)
  have lO := field_lt W 31 26
  have lT := field_lt W 25 21
  have lA := field_lt W 20 16
  have lB := field_lt W 15 11
  have lC := field_lt W 10 6
  have lL := field_lt W 5 0
  unfold RSValue RTValue RAValue RBValue RCValue OpcodeValue kNumRegisters
  rw [hO, hT, hA, hB, hC, hL]
  norm_num at lO lT lA lB lC lL
  refine ⟨rfl, ⟨by positivity, by exact_mod_cast lT, by exact_mod_cast lT⟩,
    ⟨by positivity, by exact_mod_cast lA, by exact_mod_cast lA⟩,
    ⟨by positivity, by exact_mod_cast lB, by exact_mod_cast lB⟩,
    ⟨by positivity, by exact_mod_cast lC, by exact_mod_cast lC⟩,
    ⟨by positivity, by exact_mod_cast lO⟩, ?_⟩
  rw [bor_eq_ofBits]
  have hpat : toBits (bor (bor (bor (bor (bor (shl (field W 31 26 : Int) 26)
      (shl (field W 25 21 : Int) 21)) (shl (field W 20 16 : Int) 16))
      (shl (field W 15 11 : Int) 11)) (shl (field W 10 6 : Int) 6)) (field W 5 0 : Int))
      = toBits W := by
    rw [toBits_bor, toBits_bor, toBits_bor, toBits_bor, toBits_bor, toBits_shl, toBits_shl,
      toBits_shl, toBits_shl, toBits_shl, toBits_natCast _ (by omega),
      toBits_natCast _ (by omega), toBits_natCast _ (by omega),
      toBits_natCast _ (by omega), toBits_natCast _ (by omega),
      toBits_natCast _ (by omega), or_fields _ _ _ _ _ _ lO lT lA lB lC lL]
    unfold field
    norm_num
    omega
  rw [hpat]
  exact ofBits_toBits W hW

/-- Witness of C23: the word 0x80000000, whose bit 31 is set. -/
theorem accessors_partition_word_witness :
    isInt32 (-2147483648) ∧
    (RSValue (-2147483648) = RTValue (-2147483648) ∧
     (0 ≤ RTValue (-2147483648) ∧ RTValue (-2147483648) < 32 ∧
       RTValue (-2147483648) < kNumRegisters) ∧
     (0 ≤ RAValue (-2147483648) ∧ RAValue (-2147483648) < 32 ∧
       RAValue (-2147483648) < kNumRegisters) ∧
     (0 ≤ RBValue (-2147483648) ∧ RBValue (-2147483648) < 32 ∧
       RBValue (-2147483648) < kNumRegisters) ∧
     (0 ≤ RCValue (-2147483648) ∧ RCValue (-2147483648) < 32 ∧
       RCValue (-2147483648) < kNumRegisters) ∧
     (0 ≤ OpcodeValue (-2147483648) ∧ OpcodeValue (-2147483648) < 64) ∧
     bor (bor (bor (bor (bor (shl (OpcodeValue (-2147483648)) 26)
       (shl (RTValue (-2147483648)) 21)) (shl (RAValue (-2147483648)) 16))
       (shl (RBValue (-2147483648)) 11)) (shl (RCValue (-2147483648)) 6))
       (Bits (-2147483648) 5 0) = -2147483648) :=
  ⟨by decide, accessors_partition_word (-2147483648) (by decide)⟩

/-- C24. The constants of enum OpcodeExt4 are pairwise distinct; for every constant t of
the forms of bits 10-1 and every constant s of the forms of bits 5-1,
`t & (0x1f << 1)` is not s; so a word whose bits 10-1 hold t does not match s when its
bits 5-1 are tested. -/
theorem OpcodeExt4_forms_disjoint :
    OpcodeExt4.all.Nodup ∧ OpcodeExt4.all.length = 18 ∧ kExt2OpcodeMask = shl 31 1 ∧
    (∀ t ∈ OpcodeExt4.tenBit, ∀ s ∈ OpcodeExt4.fiveBit, band t (shl 31 1) ≠ s) ∧
    (∀ W : Int, ∀ t ∈ OpcodeExt4.tenBit, ∀ s ∈ OpcodeExt4.fiveBit,
      BitField W 10 1 = t → BitField W 5 1 ≠ s) := by
  have hts : ∀ t ∈ OpcodeExt4.tenBit, ∀ s ∈ OpcodeExt4.fiveBit,
      band t kExt2OpcodeMask ≠ s := by
    decide
  refine ⟨by decide, by decide, by decide, by decide, ?_⟩
  intro W t ht s hs hW
  rw [BitField_five_of_ten, hW]
  exact hts t ht s hs

/-- C25. For every enumerated condition value c other than al,
`ReverseCondition(NegateCondition(c))` equals `NegateCondition(ReverseCondition(c))`, no
assertion failing on either side; and ReverseCondition(c) is al only when c is al. -/
theorem Negate_Reverse_commute (c : Int) (hc : c ∈ Condition.codes)
    (hal : c ≠ Condition.al) :
    (NegateCondition c).map ReverseCondition = NegateCondition (ReverseCondition c) ∧
    (NegateCondition c).isSome = true ∧
    (NegateCondition (ReverseCondition c)).isSome = true ∧
    ReverseCondition c ≠ Condition.al := by
  have hall : ∀ d ∈ Condition.codes, d ≠ Condition.al →
      (NegateCondition d).map ReverseCondition = NegateCondition (ReverseCondition d) ∧
      (NegateCondition d).isSome = true ∧
      (NegateCondition (ReverseCondition d)).isSome = true ∧
      ReverseCondition d ≠ Condition.al := by
    decide
  exact hall c hc hal

/-- Witness of C25: the condition hi, which reversal sends to lo and negation to ls; both
orders give hs. -/
theorem Negate_Reverse_commute_witness :
    Condition.hi ∈ Condition.codes ∧ Condition.hi ≠ Condition.al ∧
    ((NegateCondition Condition.hi).map ReverseCondition
        = NegateCondition (ReverseCondition Condition.hi) ∧
     (NegateCondition Condition.hi).isSome = true ∧
     (NegateCondition (ReverseCondition Condition.hi)).isSome = true ∧
     ReverseCondition Condition.hi ≠ Condition.al) :=
  ⟨by decide, by decide, Negate_Reverse_commute Condition.hi (by decide) (by decide)⟩

end V8PPC
